import Mathlib

/-!
Shallow embedding of the Pak binary codec (src/Pak.h).

Bytes are modelled as natural numbers below 256; a C++ object of an
arithmetic type T is modelled by its little-endian byte representation
(a list of sizeof(T) bytes) together with a flag recording whether T is
an integral type.  Host byte order is a Bool parameter (true = the host
is big-endian); the in-memory representation of an object on a given
host is derived from the canonical little-endian representation by
reversal when the host is big-endian, exactly as on real hardware.
-/

namespace Pak

/-- Little-endian byte decomposition of a natural number into a fixed
number of bytes, least significant first (models the object
representation of an unsigned integer on a little-endian host). -/
def leBytes : Nat → Nat → List Nat
  | 0, _ => []
  | w + 1, n => n % 256 :: leBytes w (n / 256)

/-- Recompose a natural number from little-endian bytes. -/
def fromLE : List Nat → Nat
  | [] => 0
  | b :: rest => b + 256 * fromLE rest

theorem length_leBytes (w n : Nat) : (leBytes w n).length = w := by
  induction w generalizing n with
  | zero => rfl
  | succ w ih => simp [leBytes, ih]

theorem leBytes_lt (w n : Nat) : ∀ b ∈ leBytes w n, b < 256 := by
  induction w generalizing n with
  | zero => simp [leBytes]
  | succ w ih =>
    intro b hb
    simp only [leBytes, List.mem_cons] at hb
    rcases hb with h | h
    · subst h
      exact Nat.mod_lt _ (by norm_num)
    · exact ih _ _ h

theorem fromLE_leBytes (w n : Nat) (h : n < 256 ^ w) : fromLE (leBytes w n) = n := by
  induction w generalizing n with
  | zero =>
    interval_cases n
    rfl
  | succ w ih =>
    have hdiv : n / 256 < 256 ^ w := by
      rw [Nat.div_lt_iff_lt_mul (by norm_num)]
      calc n < 256 ^ (w + 1) := h
        _ = 256 ^ w * 256 := by ring
    simp [leBytes, fromLE, ih _ hdiv, Nat.mod_add_div]

theorem leBytes_fromLE (l : List Nat) (h : ∀ b ∈ l, b < 256) :
    leBytes l.length (fromLE l) = l := by
  induction l with
  | nil => rfl
  | cons b rest ih =>
    have hb : b < 256 := h b (List.mem_cons_self _ _)
    have hrest : ∀ x ∈ rest, x < 256 := fun x hx => h x (List.mem_cons_of_mem _ hx)
    simp [leBytes, fromLE, Nat.add_mul_mod_self_left, Nat.mod_eq_of_lt hb,
      Nat.add_mul_div_left _ _ (show 0 < 256 by norm_num),
      Nat.div_eq_of_lt hb, ih hrest]

theorem fromLE_lt (l : List Nat) (h : ∀ b ∈ l, b < 256) :
    fromLE l < 256 ^ l.length := by
  induction l with
  | nil => simp [fromLE]
  | cons b rest ih =>
    have hb : b < 256 := h b (List.mem_cons_self _ _)
    have hrest := ih (fun x hx => h x (List.mem_cons_of_mem _ hx))
    simp only [fromLE, List.length_cons, pow_succ]
    calc b + 256 * fromLE rest
        ≤ 255 + 256 * fromLE rest := by omega
      _ < 256 * (fromLE rest + 1) := by omega
      _ ≤ 256 * 256 ^ rest.length := by
          have : fromLE rest + 1 ≤ 256 ^ rest.length := hrest
          exact Nat.mul_le_mul_left _ this
      _ = 256 ^ rest.length * 256 := by ring

/-- Models shouldByteSwap from src/Pak.h: the first overload (enabled for
integral types wider than one byte) returns whether the host is
big-endian; the second overload (one-byte or non-integral types) returns
false.  In particular floating-point values are never swapped. -/
def shouldByteSwap (isBigEndian : Bool) (size : Nat) (isIntegral : Bool) : Bool :=
  if 1 < size ∧ isIntegral = true then isBigEndian else false

/-- In-memory representation of a value on the given host, derived from
its canonical little-endian representation: big-endian hosts store the
bytes in reversed order. -/
def hostBytes (isBigEndian : Bool) (le : List Nat) : List Nat :=
  if isBigEndian then le.reverse else le

/-- Models byteSwap from src/Pak.h at the byte level: all three
implementations (the MSVC and GCC byte-swap intrinsics and the portable
two-pointer loop) reverse the byte representation of the value. -/
def byteSwapBytes (l : List Nat) : List Nat := l.reverse

/-- Models byteSwap from src/Pak.h on an integer value of the given byte
width: the result is the integer whose byte representation is the
reversal of the byte representation of the input. -/
def byteSwapNat (w n : Nat) : Nat := fromLE (byteSwapBytes (leBytes w n))

/-- Models Pak::copyPrimitive from src/Pak.h, at the byte level: the
source representation is copied to the destination and then byte-swapped
in place when shouldByteSwap holds for the type. -/
def copyPrimitive (isBigEndian isIntegral : Bool) (src : List Nat) : List Nat :=
  if shouldByteSwap isBigEndian src.length isIntegral then byteSwapBytes src else src

/-- Wire bytes produced for one primitive by the Write pass: the
in-memory representation is copied into the buffer and conditionally
swapped (Pak::parse, Op Write, arithmetic case). -/
def wireOfPrim (isBigEndian isIntegral : Bool) (le : List Nat) : List Nat :=
  copyPrimitive isBigEndian isIntegral (hostBytes isBigEndian le)

/-- Canonical little-endian representation recovered by the Read pass
from a chunk of wire bytes: the chunk is copied into the destination
object, conditionally swapped (Pak::parse, Op Read, arithmetic case),
and the resulting in-memory representation is interpreted on the host. -/
def readPrimLe (isBigEndian isIntegral : Bool) (wire : List Nat) : List Nat :=
  hostBytes isBigEndian (copyPrimitive isBigEndian isIntegral wire)

theorem hostBytes_hostBytes (b : Bool) (l : List Nat) :
    hostBytes b (hostBytes b l) = l := by
  cases b <;> simp [hostBytes]

theorem length_hostBytes (b : Bool) (l : List Nat) :
    (hostBytes b l).length = l.length := by
  cases b <;> simp [hostBytes]

theorem length_copyPrimitive (b i : Bool) (l : List Nat) :
    (copyPrimitive b i l).length = l.length := by
  unfold copyPrimitive
  split <;> simp [byteSwapBytes]

theorem copyPrimitive_copyPrimitive (b i : Bool) (l : List Nat) :
    copyPrimitive b i (copyPrimitive b i l) = l := by
  unfold copyPrimitive
  split <;> rename_i h
  · simp_all [byteSwapBytes]
  · simp_all

theorem length_wireOfPrim (b i : Bool) (le : List Nat) :
    (wireOfPrim b i le).length = le.length := by
  rw [wireOfPrim, length_copyPrimitive, length_hostBytes]

/-- On the wire, integral primitives are always little-endian: the
conditional swap exactly cancels the host representation. -/
theorem wireOfPrim_integral (b : Bool) (le : List Nat) :
    wireOfPrim b true le = le := by
  rcases b with _ | _
  · simp [wireOfPrim, hostBytes, copyPrimitive, shouldByteSwap, byteSwapBytes]
  · rcases le with _ | ⟨x, _ | ⟨y, rest⟩⟩ <;>
      simp [wireOfPrim, hostBytes, copyPrimitive, shouldByteSwap, byteSwapBytes]

theorem readPrimLe_wireOfPrim (b i : Bool) (le : List Nat) :
    readPrimLe b i (wireOfPrim b i le) = le := by
  rw [readPrimLe, wireOfPrim, copyPrimitive_copyPrimitive, hostBytes_hostBytes]

/-!
Values and shapes.  A Value models one runtime argument handed to
Pak::write, classified the way the capability traits of src/Pak.h
classify its C++ type: prim is an arithmetic primitive (carrying its
integrality flag and its canonical little-endian object representation,
whose length is sizeof of the type); pair is std::pair; fixedArr is a
raw C array or std::array (no length prefix); dynSeq is a resizable
non-map container (std::vector, std::string, ...); assocMap is a
map-like container, whose entries are the pair values it holds in
iteration order; userData is a user-defined type whose serialize hook
forwards the listed fields into the engine in order.

A Shape is the compile-time type information of a read destination: the
same classification without the runtime data.
-/

inductive Value where
  | prim (isIntegral : Bool) (le : List Nat)
  | pair (a b : Value)
  | fixedArr (elems : List Value)
  | dynSeq (elems : List Value)
  | assocMap (entries : List Value)
  | userData (fields : List Value)

inductive Shape where
  | prim (width : Nat) (isIntegral : Bool)
  | pair (a b : Shape)
  | fixedArr (n : Nat) (s : Shape)
  | dynSeq (s : Shape)
  | assocMap (k v : Shape)
  | userData (fields : List Shape)

/-- The element count a container contributes to the stream, as a value:
Pak::parse for containers computes static_cast of container.size() to a
4-byte unsigned integer and routes it through the arithmetic handler. -/
def countValue (n : Nat) : Value := .prim true (leBytes 4 (n % 2 ^ 32))

mutual

/-- Models the Reserve pass (Pak::parse with Op Reserve) as the number
of bytes it adds to reserveSize for one argument: sizeof for
arithmetic leaves, 4 extra bytes for the element count of a dynamic
container, and the sum over children everywhere else. -/
def reserveVal : Value → Nat
  | .prim _ le => le.length
  | .pair a b => reserveVal a + reserveVal b
  | .fixedArr es => reserveList es
  | .dynSeq es => 4 + reserveList es
  | .assocMap es => 4 + reserveList es
  | .userData fs => reserveList fs

/-- Reserve pass over a sub-range of arguments or container elements,
visited in iteration order. -/
def reserveList : List Value → Nat
  | [] => 0
  | v :: vs => reserveVal v + reserveList vs

end

mutual

/-- Models the Write pass (Pak::parse with Op Write) as the list of
bytes it appends to the buffer for one argument, in order: primitives
via copyPrimitive, pairs first then second, fixed arrays and
user-defined hooks as the concatenation of their children, and dynamic
containers as the 4-byte element count followed by the elements in
iteration order.  The contiguous-range fast path of src/Pak.h is
modelled separately by copyPrimitiveArray and proved byte-for-byte
equal to this element-by-element form. -/
def writeVal (bigE : Bool) : Value → List Nat
  | .prim i le => wireOfPrim bigE i le
  | .pair a b => writeVal bigE a ++ writeVal bigE b
  | .fixedArr es => writeList bigE es
  | .dynSeq es => wireOfPrim bigE true (leBytes 4 (es.length % 2 ^ 32)) ++ writeList bigE es
  | .assocMap es => wireOfPrim bigE true (leBytes 4 (es.length % 2 ^ 32)) ++ writeList bigE es
  | .userData fs => writeList bigE fs

/-- Write pass over a sub-range of arguments or container elements. -/
def writeList (bigE : Bool) : List Value → List Nat
  | [] => []
  | v :: vs => writeVal bigE v ++ writeList bigE vs

end

/-- The wire bytes of the element count coincide with the wire bytes of
countValue routed through the primitive handler, as in the source. -/
theorem writeVal_countValue (bigE : Bool) (es : List Value) :
    writeVal bigE (.dynSeq es) =
      writeVal bigE (countValue es.length) ++ writeList bigE es := by
  simp [writeVal, countValue]

mutual

theorem writeVal_length (bigE : Bool) (v : Value) :
    (writeVal bigE v).length = reserveVal v := by
  cases v with
  | prim i le => simp [writeVal, reserveVal, length_wireOfPrim]
  | pair a b =>
    simp [writeVal, reserveVal, writeVal_length bigE a, writeVal_length bigE b]
  | fixedArr es => simp [writeVal, reserveVal, writeList_length bigE es]
  | dynSeq es =>
    simp [writeVal, reserveVal, countValue, writeList_length bigE es,
      length_wireOfPrim, length_leBytes]
  | assocMap es =>
    simp [writeVal, reserveVal, countValue, writeList_length bigE es,
      length_wireOfPrim, length_leBytes]
  | userData fs => simp [writeVal, reserveVal, writeList_length bigE fs]

theorem writeList_length (bigE : Bool) (vs : List Value) :
    (writeList bigE vs).length = reserveList vs := by
  cases vs with
  | nil => rfl
  | cons v vs =>
    simp [writeList, reserveList, writeVal_length bigE v, writeList_length bigE vs]

end

/-!
The Read pass.  Pak::parse with Op Read consumes bytes from the buffer
at the read cursor and fills a destination whose type supplies the
Shape.  It is modelled as a function from the remaining byte stream to
the reconstructed value and the unconsumed remainder of the stream; the
source performs no bounds checks (vector subscripts past the end are
undefined behaviour), so a stream shorter than the shape requires is
modelled as the failure None, the BoundsViolation of the spec.
-/

/-- Models read of std::uint32_t used for container element counts:
four bytes are consumed through the arithmetic Read handler and
recomposed into the count. -/
def readCount (bigE : Bool) (wire : List Nat) : Option (Nat × List Nat) :=
  if 4 ≤ wire.length then
    some (fromLE (readPrimLe bigE true (wire.take 4)), wire.drop 4)
  else none

mutual

/-- Models the Read pass (Pak::parse with Op Read) for one destination:
primitives consume sizeof bytes through copyPrimitive; pairs read first
then second; fixed arrays read their statically known element count
with no prefix; dynamic sequences read a 4-byte count, resize the
destination to it and read that many elements in place; associative
maps read a 4-byte count, clear the destination and insert that many
freshly read key/value pairs at its end; user-defined hooks forward
each field in order. -/
def readVal (bigE : Bool) : Shape → List Nat → Option (Value × List Nat)
  | .prim w i, wire =>
    if w ≤ wire.length then
      some (.prim i (readPrimLe bigE i (wire.take w)), wire.drop w)
    else none
  | .pair a b, wire =>
    match readVal bigE a wire with
    | none => none
    | some (x, wire) =>
      match readVal bigE b wire with
      | none => none
      | some (y, wire) => some (.pair x y, wire)
  | .fixedArr n s, wire =>
    match readN bigE s n wire with
    | none => none
    | some (es, wire) => some (.fixedArr es, wire)
  | .dynSeq s, wire =>
    match readCount bigE wire with
    | none => none
    | some (n, wire) =>
      match readN bigE s n wire with
      | none => none
      | some (es, wire) => some (.dynSeq es, wire)
  | .assocMap k v, wire =>
    match readCount bigE wire with
    | none => none
    | some (n, wire) =>
      match readEntries bigE k v n wire with
      | none => none
      | some (es, wire) => some (.assocMap es, wire)
  | .userData fs, wire =>
    match readFields bigE fs wire with
    | none => none
    | some (xs, wire) => some (.userData xs, wire)
termination_by s _ => (2 * sizeOf s, 0)

/-- Read a run of elements of one shape, element by element, as the
iterator-pair handler does for a resized sequence or a fixed array. -/
def readN (bigE : Bool) (s : Shape) : Nat → List Nat → Option (List Value × List Nat)
  | 0, wire => some ([], wire)
  | n + 1, wire =>
    match readVal bigE s wire with
    | none => none
    | some (x, wire) =>
      match readN bigE s n wire with
      | none => none
      | some (xs, wire) => some (x :: xs, wire)
termination_by n _ => (2 * sizeOf s + 1, n)

/-- Read a run of key/value pairs for an associative map: each loop
iteration of the map Read handler reads one std::pair of the key and
mapped types and inserts it at the end. -/
def readEntries (bigE : Bool) (k v : Shape) : Nat → List Nat → Option (List Value × List Nat)
  | 0, wire => some ([], wire)
  | n + 1, wire =>
    match readVal bigE k wire with
    | none => none
    | some (x, wire) =>
      match readVal bigE v wire with
      | none => none
      | some (y, wire) =>
        match readEntries bigE k v n wire with
        | none => none
        | some (es, wire) => some (.pair x y :: es, wire)
termination_by n _ => (2 * (sizeOf k + sizeOf v) + 1, n)

/-- Read each field of a user-defined destination in declaration
order, as its serialize hook forwards them into the engine. -/
def readFields (bigE : Bool) : List Shape → List Nat → Option (List Value × List Nat)
  | [], wire => some ([], wire)
  | s :: rest, wire =>
    match readVal bigE s wire with
    | none => none
    | some (x, wire) =>
      match readFields bigE rest wire with
      | none => none
      | some (xs, wire) => some (x :: xs, wire)
termination_by fs _ => (2 * sizeOf fs + 1, 0)

end

/-!
Shape conformance.  A destination of shape sh can receive exactly the
values wfB sh v accepts: primitive representations have the width of
the destination type and matching integrality, containers hold
conforming children, and a dynamic container holds fewer than 2 to the
32 elements so that the emitted 4-byte count is its exact size (the
source truncates larger sizes through static_cast to std::uint32_t).
-/

mutual

def wfB : Shape → Value → Bool
  | .prim w i, .prim i1 le => i == i1 && le.length == w
  | .pair a b, .pair x y => wfB a x && wfB b y
  | .fixedArr n s, .fixedArr es => es.length == n && wfListB s es
  | .dynSeq s, .dynSeq es => decide (es.length < 2 ^ 32) && wfListB s es
  | .assocMap k v, .assocMap es => decide (es.length < 2 ^ 32) && wfEntriesB k v es
  | .userData shs, .userData fs => wfFieldsB shs fs
  | _, _ => false

def wfListB (s : Shape) : List Value → Bool
  | [] => true
  | v :: vs => wfB s v && wfListB s vs

def wfEntriesB (k v : Shape) : List Value → Bool
  | [] => true
  | .pair x y :: es => wfB k x && wfB v y && wfEntriesB k v es
  | _ :: _ => false

def wfFieldsB : List Shape → List Value → Bool
  | [], [] => true
  | s :: shs, v :: vs => wfB s v && wfFieldsB shs vs
  | _, _ => false

end

theorem take_app (l r : List Nat) : (l ++ r).take l.length = l := by
  simp

theorem drop_app (l r : List Nat) : (l ++ r).drop l.length = r := by
  simp

theorem take_app_len (l r : List Nat) (n : Nat) (h : l.length = n) :
    (l ++ r).take n = l := by
  subst h
  simp

theorem drop_app_len (l r : List Nat) (n : Nat) (h : l.length = n) :
    (l ++ r).drop n = r := by
  subst h
  simp

/-- Reading an integral primitive recovers exactly the wire bytes as
the canonical little-endian representation: the conditional swap and
the host interpretation cancel. -/
theorem readPrimLe_integral (bigE : Bool) (wire : List Nat) :
    readPrimLe bigE true wire = wire := by
  rcases bigE with _ | _
  · simp [readPrimLe, hostBytes, copyPrimitive, shouldByteSwap, byteSwapBytes]
  · rcases wire with _ | ⟨x, _ | ⟨y, rest⟩⟩ <;>
      simp [readPrimLe, hostBytes, copyPrimitive, shouldByteSwap, byteSwapBytes]

/-- Reading back the 4-byte element count emitted for a container
yields the truncated size on every host order. -/
theorem readCount_leBytes (bigE : Bool) (n : Nat) (rest : List Nat)
    (h : n < 2 ^ 32) :
    readCount bigE (leBytes 4 n ++ rest) = some (n, rest) := by
  have h4 : (leBytes 4 n).length = 4 := length_leBytes _ _
  have hlt : n < 256 ^ 4 := by
    have h2 : (2 : Nat) ^ 32 = 256 ^ 4 := by norm_num
    omega
  rw [readCount, if_pos (by simp [h4]), take_app_len _ _ _ h4, drop_app_len _ _ _ h4,
    readPrimLe_integral, fromLE_leBytes _ _ hlt]

/-!
Round-trip: reading the bytes produced by the Write pass with a
destination of the shape of the written value reconstructs that value
and consumes exactly the written bytes, leaving any following bytes for
later reads.
-/

mutual

theorem readVal_writeVal (bigE : Bool) (sh : Shape) (v : Value)
    (h : wfB sh v = true) (rest : List Nat) :
    readVal bigE sh (writeVal bigE v ++ rest) = some (v, rest) := by
  cases sh with
  | prim w i =>
    cases v with
    | prim i1 le =>
      simp only [wfB, Bool.and_eq_true, beq_iff_eq] at h
      obtain ⟨hi, hw⟩ := h
      subst hi
      subst hw
      simp only [writeVal, readVal]
      rw [if_pos (by simp [length_wireOfPrim])]
      rw [← length_wireOfPrim bigE i le, take_app, drop_app, readPrimLe_wireOfPrim]
    | pair a b => simp [wfB] at h
    | fixedArr es => simp [wfB] at h
    | dynSeq es => simp [wfB] at h
    | assocMap es => simp [wfB] at h
    | userData fs => simp [wfB] at h
  | pair sa sb =>
    cases v with
    | pair x y =>
      simp only [wfB, Bool.and_eq_true] at h
      simp only [writeVal, readVal, List.append_assoc,
        readVal_writeVal bigE sa x h.1, readVal_writeVal bigE sb y h.2]
    | prim i1 le => simp [wfB] at h
    | fixedArr es => simp [wfB] at h
    | dynSeq es => simp [wfB] at h
    | assocMap es => simp [wfB] at h
    | userData fs => simp [wfB] at h
  | fixedArr n s =>
    cases v with
    | fixedArr es =>
      simp only [wfB, Bool.and_eq_true, beq_iff_eq] at h
      obtain ⟨hn, hes⟩ := h
      subst hn
      simp only [writeVal, readVal, readN_writeList bigE s es hes]
    | prim i1 le => simp [wfB] at h
    | pair a b => simp [wfB] at h
    | dynSeq es => simp [wfB] at h
    | assocMap es => simp [wfB] at h
    | userData fs => simp [wfB] at h
  | dynSeq s =>
    cases v with
    | dynSeq es =>
      simp only [wfB, Bool.and_eq_true, decide_eq_true_eq] at h
      simp only [writeVal, readVal, wireOfPrim_integral, List.append_assoc,
        Nat.mod_eq_of_lt h.1, readCount_leBytes bigE es.length _ h.1,
        readN_writeList bigE s es h.2]
    | prim i1 le => simp [wfB] at h
    | pair a b => simp [wfB] at h
    | fixedArr es => simp [wfB] at h
    | assocMap es => simp [wfB] at h
    | userData fs => simp [wfB] at h
  | assocMap k v1 =>
    cases v with
    | assocMap es =>
      simp only [wfB, Bool.and_eq_true, decide_eq_true_eq] at h
      simp only [writeVal, readVal, wireOfPrim_integral, List.append_assoc,
        Nat.mod_eq_of_lt h.1, readCount_leBytes bigE es.length _ h.1,
        readEntries_writeList bigE k v1 es h.2]
    | prim i1 le => simp [wfB] at h
    | pair a b => simp [wfB] at h
    | fixedArr es => simp [wfB] at h
    | dynSeq es => simp [wfB] at h
    | userData fs => simp [wfB] at h
  | userData shs =>
    cases v with
    | userData fs =>
      simp only [writeVal, readVal, readFields_writeList bigE shs fs h]
    | prim i1 le => simp [wfB] at h
    | pair a b => simp [wfB] at h
    | fixedArr es => simp [wfB] at h
    | dynSeq es => simp [wfB] at h
    | assocMap es => simp [wfB] at h
termination_by sizeOf v

theorem readN_writeList (bigE : Bool) (s : Shape) (vs : List Value)
    (h : wfListB s vs = true) (rest : List Nat) :
    readN bigE s vs.length (writeList bigE vs ++ rest) = some (vs, rest) := by
  cases vs with
  | nil => simp [writeList, readN]
  | cons v vs =>
    simp only [wfListB, Bool.and_eq_true] at h
    simp only [List.length_cons, writeList, readN, List.append_assoc,
      readVal_writeVal bigE s v h.1, readN_writeList bigE s vs h.2]
termination_by sizeOf vs

theorem readEntries_writeList (bigE : Bool) (k v1 : Shape) (vs : List Value)
    (h : wfEntriesB k v1 vs = true) (rest : List Nat) :
    readEntries bigE k v1 vs.length (writeList bigE vs ++ rest) = some (vs, rest) := by
  cases vs with
  | nil => simp [writeList, readEntries]
  | cons v vs =>
    cases v with
    | pair x y =>
      simp only [wfEntriesB, Bool.and_eq_true] at h
      simp only [List.length_cons, writeList, writeVal, readEntries, List.append_assoc,
        readVal_writeVal bigE k x h.1.1,
        readVal_writeVal bigE v1 y h.1.2, readEntries_writeList bigE k v1 vs h.2]
    | prim i1 le => simp [wfEntriesB] at h
    | fixedArr es => simp [wfEntriesB] at h
    | dynSeq es => simp [wfEntriesB] at h
    | assocMap es => simp [wfEntriesB] at h
    | userData fs => simp [wfEntriesB] at h
termination_by sizeOf vs

theorem readFields_writeList (bigE : Bool) (shs : List Shape) (vs : List Value)
    (h : wfFieldsB shs vs = true) (rest : List Nat) :
    readFields bigE shs (writeList bigE vs ++ rest) = some (vs, rest) := by
  cases shs with
  | nil =>
    cases vs with
    | nil => simp [writeList, readFields]
    | cons v vs => simp [wfFieldsB] at h
  | cons s shs =>
    cases vs with
    | nil => simp [wfFieldsB] at h
    | cons v vs =>
      simp only [wfFieldsB, Bool.and_eq_true] at h
      simp only [writeList, readFields, List.append_assoc,
        readVal_writeVal bigE s v h.1, readFields_writeList bigE shs vs h.2]
termination_by sizeOf vs

end

/-!
Buffer state.  A Pak instance owns a growable byte vector and three
counters: reserveSize (the Reserve accumulator), writePosition and
readPosition, all zero after default construction (src/Pak.h, private
members).  A Write-pass primitive handler stores its wire bytes into
the already-resized vector at writePosition; storeAt models that
in-place memcpy.
-/

structure PakState where
  bytes : List Nat
  reserveSize : Nat
  writePosition : Nat
  readPosition : Nat

/-- State of a default-constructed Pak: empty buffer, all counters
zero. -/
def initState : PakState :=
  { bytes := [], reserveSize := 0, writePosition := 0, readPosition := 0 }

/-- Overwrite the bytes of buf starting at offset off with data,
leaving everything before and after unchanged (in-place memcpy into a
buffer; callers stay within bounds after the resize performed by
Pak::write). -/
def storeAt (buf : List Nat) (off : Nat) (data : List Nat) : List Nat :=
  buf.take off ++ data.take (buf.length - off) ++ buf.drop (off + data.length)

theorem take_app_add (l r : List Nat) (k : Nat) :
    (l ++ r).take (l.length + k) = l ++ r.take k := by
  induction l with
  | nil => simp
  | cons a l ih =>
    simp only [List.cons_append, List.length_cons]
    rw [Nat.add_right_comm, List.take_succ_cons, ih]

theorem drop_app_add (l r : List Nat) (k : Nat) :
    (l ++ r).drop (l.length + k) = r.drop k := by
  induction l with
  | nil => simp
  | cons a l ih =>
    simp only [List.cons_append, List.length_cons]
    rw [Nat.add_right_comm, List.drop_succ_cons, ih]

theorem storeAt_inb (buf : List Nat) (off : Nat) (data : List Nat)
    (h : off + data.length ≤ buf.length) :
    storeAt buf off data = buf.take off ++ data ++ buf.drop (off + data.length) := by
  rw [storeAt, List.take_of_length_le (l := data) (by omega)]

theorem length_storeAt (buf : List Nat) (off : Nat) (data : List Nat)
    (h : off + data.length ≤ buf.length) :
    (storeAt buf off data).length = buf.length := by
  rw [storeAt_inb _ _ _ h]
  simp only [List.length_append, List.length_take, List.length_drop]
  omega

theorem storeAt_storeAt (buf : List Nat) (off : Nat) (d1 d2 : List Nat)
    (h : off + d1.length + d2.length ≤ buf.length) :
    storeAt (storeAt buf off d1) (off + d1.length) d2 = storeAt buf off (d1 ++ d2) := by
  have hA : (buf.take off).length = off := by
    simp only [List.length_take]
    omega
  rw [storeAt_inb buf off d1 (by omega),
    storeAt_inb buf off (d1 ++ d2) (by simp only [List.length_append]; omega),
    ← List.append_assoc,
    storeAt_inb _ _ d2 (by simp only [List.length_append, List.length_drop, hA]; omega),
    take_app_len _ _ _ (by simp [hA]),
    show off + d1.length + d2.length = (buf.take off ++ d1).length + d2.length by
      simp [hA],
    drop_app_add, List.drop_drop]
  simp only [List.append_assoc, List.length_append, hA]
  rw [Nat.add_assoc]

/-!
The Reserve and Write passes as state transformers, following the
per-category handlers of Pak::parse: Reserve only adds byte counts to
reserveSize; Write stores wire bytes at writePosition and advances it.
-/

mutual

def reserveStep (s : PakState) : Value → PakState
  | .prim _ le => { s with reserveSize := s.reserveSize + le.length }
  | .pair a b => reserveStep (reserveStep s a) b
  | .fixedArr es => reserveListStep s es
  | .dynSeq es => reserveListStep { s with reserveSize := s.reserveSize + 4 } es
  | .assocMap es => reserveListStep { s with reserveSize := s.reserveSize + 4 } es
  | .userData fs => reserveListStep s fs

def reserveListStep (s : PakState) : List Value → PakState
  | [] => s
  | v :: vs => reserveListStep (reserveStep s v) vs

end

/-- Write the 4-byte element count of a container through the
arithmetic Write handler. -/
def writeCountStep (bigE : Bool) (s : PakState) (n : Nat) : PakState :=
  { s with
    bytes := storeAt s.bytes s.writePosition (wireOfPrim bigE true (leBytes 4 (n % 2 ^ 32))),
    writePosition := s.writePosition + 4 }

mutual

def writeStep (bigE : Bool) (s : PakState) : Value → PakState
  | .prim i le =>
    { s with
      bytes := storeAt s.bytes s.writePosition (wireOfPrim bigE i le),
      writePosition := s.writePosition + le.length }
  | .pair a b => writeStep bigE (writeStep bigE s a) b
  | .fixedArr es => writeListStep bigE s es
  | .dynSeq es => writeListStep bigE (writeCountStep bigE s es.length) es
  | .assocMap es => writeListStep bigE (writeCountStep bigE s es.length) es
  | .userData fs => writeListStep bigE s fs

def writeListStep (bigE : Bool) (s : PakState) : List Value → PakState
  | [] => s
  | v :: vs => writeListStep bigE (writeStep bigE s v) vs

end

/-- Models one outer call Pak::write(args...): one full Reserve pass
over the argument list, then one resize growing the byte vector by the
current reserveSize (std::vector::resize value-initializes the new
bytes to zero), then one full Write pass.  Note that reserveSize is a
member variable and is reset nowhere in the source. -/
def pakWriteOp (bigE : Bool) (s : PakState) (args : List Value) : PakState :=
  let s1 := reserveListStep s args
  let s2 := { s1 with bytes := s1.bytes ++ List.replicate s1.reserveSize 0 }
  writeListStep bigE s2 args

mutual

theorem reserveStep_eq (s : PakState) (v : Value) :
    reserveStep s v = { s with reserveSize := s.reserveSize + reserveVal v } := by
  cases v with
  | prim i le => simp [reserveStep, reserveVal]
  | pair a b =>
    rw [reserveStep, reserveStep_eq s a, reserveStep_eq _ b]
    simp [reserveVal, Nat.add_assoc]
  | fixedArr es =>
    rw [reserveStep, reserveListStep_eq s es]
    simp [reserveVal]
  | dynSeq es =>
    rw [reserveStep, reserveListStep_eq _ es]
    simp [reserveVal, Nat.add_assoc]
  | assocMap es =>
    rw [reserveStep, reserveListStep_eq _ es]
    simp [reserveVal, Nat.add_assoc]
  | userData fs =>
    rw [reserveStep, reserveListStep_eq s fs]
    simp [reserveVal]
termination_by sizeOf v

theorem reserveListStep_eq (s : PakState) (vs : List Value) :
    reserveListStep s vs = { s with reserveSize := s.reserveSize + reserveList vs } := by
  cases vs with
  | nil => simp [reserveListStep, reserveList]
  | cons v vs =>
    rw [reserveListStep, reserveStep_eq s v, reserveListStep_eq _ vs]
    simp [reserveList, Nat.add_assoc]
termination_by sizeOf vs

end

mutual

theorem writeStep_eq (bigE : Bool) (s : PakState) (v : Value)
    (h : s.writePosition + (writeVal bigE v).length ≤ s.bytes.length) :
    writeStep bigE s v =
      { s with
        bytes := storeAt s.bytes s.writePosition (writeVal bigE v),
        writePosition := s.writePosition + (writeVal bigE v).length } := by
  cases v with
  | prim i le =>
    simp [writeStep, writeVal, length_wireOfPrim]
  | pair a b =>
    have hab : (writeVal bigE (Value.pair a b)).length
        = (writeVal bigE a).length + (writeVal bigE b).length := by
      simp [writeVal]
    have ha : s.writePosition + (writeVal bigE a).length ≤ s.bytes.length := by
      omega
    have hlb := length_storeAt s.bytes s.writePosition (writeVal bigE a) ha
    have hB := writeStep_eq bigE
      { s with
        bytes := storeAt s.bytes s.writePosition (writeVal bigE a),
        writePosition := s.writePosition + (writeVal bigE a).length } b
      (by dsimp only; rw [hlb]; omega)
    rw [writeStep, writeStep_eq bigE s a ha, hB]
    dsimp only
    rw [storeAt_storeAt s.bytes s.writePosition (writeVal bigE a) (writeVal bigE b)
      (by omega)]
    simp [writeVal, Nat.add_assoc]
  | fixedArr es =>
    rw [writeStep, writeListStep_eq bigE s es (by simpa [writeVal] using h)]
    simp [writeVal]
  | dynSeq es =>
    have hlen : (writeVal bigE (Value.dynSeq es)).length
        = 4 + (writeList bigE es).length := by
      simp [writeVal, length_wireOfPrim, length_leBytes]
    have h4 : (wireOfPrim bigE true (leBytes 4 (es.length % 2 ^ 32))).length = 4 := by
      rw [length_wireOfPrim, length_leBytes]
    have hb1 : s.writePosition
        + (wireOfPrim bigE true (leBytes 4 (es.length % 2 ^ 32))).length
        ≤ s.bytes.length := by
      rw [h4]; omega
    have hlb := length_storeAt s.bytes s.writePosition
      (wireOfPrim bigE true (leBytes 4 (es.length % 2 ^ 32))) hb1
    have hL := writeListStep_eq bigE
      { s with
        bytes := storeAt s.bytes s.writePosition
          (wireOfPrim bigE true (leBytes 4 (es.length % 2 ^ 32))),
        writePosition := s.writePosition + 4 } es
      (by dsimp only; rw [hlb]; omega)
    rw [writeStep, writeCountStep, hL]
    dsimp only
    rw [show s.writePosition + 4 = s.writePosition + (wireOfPrim bigE true
        (leBytes 4 (es.length % 2 ^ 32))).length from by rw [h4],
      storeAt_storeAt s.bytes s.writePosition
        (wireOfPrim bigE true (leBytes 4 (es.length % 2 ^ 32))) (writeList bigE es)
        (by rw [h4]; omega)]
    simp [writeVal, h4, Nat.add_assoc]
  | assocMap es =>
    have hlen : (writeVal bigE (Value.assocMap es)).length
        = 4 + (writeList bigE es).length := by
      simp [writeVal, length_wireOfPrim, length_leBytes]
    have h4 : (wireOfPrim bigE true (leBytes 4 (es.length % 2 ^ 32))).length = 4 := by
      rw [length_wireOfPrim, length_leBytes]
    have hb1 : s.writePosition
        + (wireOfPrim bigE true (leBytes 4 (es.length % 2 ^ 32))).length
        ≤ s.bytes.length := by
      rw [h4]; omega
    have hlb := length_storeAt s.bytes s.writePosition
      (wireOfPrim bigE true (leBytes 4 (es.length % 2 ^ 32))) hb1
    have hL := writeListStep_eq bigE
      { s with
        bytes := storeAt s.bytes s.writePosition
          (wireOfPrim bigE true (leBytes 4 (es.length % 2 ^ 32))),
        writePosition := s.writePosition + 4 } es
      (by dsimp only; rw [hlb]; omega)
    rw [writeStep, writeCountStep, hL]
    dsimp only
    rw [show s.writePosition + 4 = s.writePosition + (wireOfPrim bigE true
        (leBytes 4 (es.length % 2 ^ 32))).length from by rw [h4],
      storeAt_storeAt s.bytes s.writePosition
        (wireOfPrim bigE true (leBytes 4 (es.length % 2 ^ 32))) (writeList bigE es)
        (by rw [h4]; omega)]
    simp [writeVal, h4, Nat.add_assoc]
  | userData fs =>
    rw [writeStep, writeListStep_eq bigE s fs (by simpa [writeVal] using h)]
    simp [writeVal]
termination_by sizeOf v

theorem writeListStep_eq (bigE : Bool) (s : PakState) (vs : List Value)
    (h : s.writePosition + (writeList bigE vs).length ≤ s.bytes.length) :
    writeListStep bigE s vs =
      { s with
        bytes := storeAt s.bytes s.writePosition (writeList bigE vs),
        writePosition := s.writePosition + (writeList bigE vs).length } := by
  cases vs with
  | nil =>
    simp [writeListStep, writeList, storeAt]
  | cons v vs =>
    have hvv : (writeList bigE (v :: vs)).length
        = (writeVal bigE v).length + (writeList bigE vs).length := by
      simp [writeList]
    have hv : s.writePosition + (writeVal bigE v).length ≤ s.bytes.length := by
      omega
    have hlb := length_storeAt s.bytes s.writePosition (writeVal bigE v) hv
    have hL := writeListStep_eq bigE
      { s with
        bytes := storeAt s.bytes s.writePosition (writeVal bigE v),
        writePosition := s.writePosition + (writeVal bigE v).length } vs
      (by dsimp only; rw [hlb]; omega)
    rw [writeListStep, writeStep_eq bigE s v hv, hL]
    dsimp only
    rw [storeAt_storeAt s.bytes s.writePosition (writeVal bigE v) (writeList bigE vs)
      (by omega)]
    simp [writeList, Nat.add_assoc]
termination_by sizeOf vs

end

/-!
Contiguous-range fast path.  For a range of arithmetic elements behind
a random-access iterator, Pak::parse dispatches to an overload that
performs one bulk memcpy of the whole range and then, when
shouldByteSwap holds for the element type, one in-place byteSwap pass
over every element (Pak::copyPrimitiveArray).  At the byte level the
source range is the concatenation of the element representations; the
swap pass reverses each chunk of w bytes, w being sizeof of the
element type.
-/

/-- Reverse each consecutive chunk of w bytes of a buffer in place,
modelling the while loop of copyPrimitiveArray that byteSwaps each
element of the copied range. -/
def swapChunks (w : Nat) (l : List Nat) : List Nat :=
  if h : l = [] ∨ w = 0 then l
  else (l.take w).reverse ++ swapChunks w (l.drop w)
termination_by l.length
decreasing_by
  push_neg at h
  rcases l with _ | ⟨x, rest⟩
  · exact absurd rfl h.1
  · simp only [List.length_drop, List.length_cons]
    omega

/-- Models Pak::copyPrimitiveArray on the byte level: a single memcpy
of numBytes bytes (the concatenated element representations), followed
by one batched in-place swap pass over every element when
shouldByteSwap holds for the element type of width w. -/
def copyPrimitiveArray (isBigEndian isIntegral : Bool) (w : Nat) (src : List Nat) :
    List Nat :=
  if shouldByteSwap isBigEndian w isIntegral then swapChunks w src else src

theorem swapChunks_nil (w : Nat) : swapChunks w [] = [] := by
  rw [swapChunks]
  simp

/-- One chunk of exactly w bytes is split off and reversed, and the
loop continues behind it. -/
theorem swapChunks_cons (w : Nat) (hw : 0 < w) (c rest : List Nat)
    (hc : c.length = w) :
    swapChunks w (c ++ rest) = c.reverse ++ swapChunks w rest := by
  rw [swapChunks]
  rcases c with _ | ⟨x, t⟩
  · simp at hc
    omega
  · rw [dif_neg (by simp; omega)]
    rw [take_app_len _ _ _ hc, drop_app_len _ _ _ hc]

/-- The batched swap pass is the per-element swap: reversing each
w-byte chunk of a concatenation of w-byte chunks reverses every chunk
separately. -/
theorem swapChunks_flatten (w : Nat) (hw : 0 < w) (hosts : List (List Nat))
    (hlen : ∀ c ∈ hosts, c.length = w) :
    swapChunks w hosts.flatten = (hosts.map List.reverse).flatten := by
  induction hosts with
  | nil => simp [swapChunks_nil]
  | cons c hosts ih =>
    rw [List.flatten_cons,
      swapChunks_cons w hw c hosts.flatten (hlen c (List.mem_cons_self _ _)),
      ih (fun x hx => hlen x (List.mem_cons_of_mem _ hx))]
    simp

/-!
Reading an associative map with an explicit destination.  The map Read
handler of src/Pak.h reads the 4-byte count, clears the destination
map, then inserts count freshly read key/value pairs at its end; the
destination entries it started with are discarded.
-/

/-- Models Pak::parse, Op Read, map overload, applied to a destination
map currently holding the entries old: read numElements, clear the
destination, then insert numElements freshly read pairs at the end of
the now-empty container. -/
def readAssocInto (bigE : Bool) (k v : Shape) (old : List Value) (wire : List Nat) :
    Option (List Value × List Nat) :=
  match readCount bigE wire with
  | none => none
  | some (n, wire) =>
    let cleared : List Value := []
    match readEntries bigE k v n wire with
    | none => none
    | some (es, wire) => some (cleared ++ es, wire)

/-- The engine entry point readVal for a map destination agrees with
readAssocInto: the handler never looks at the pre-existing entries. -/
theorem readVal_assocMap_eq_readAssocInto (bigE : Bool) (k v : Shape)
    (old : List Value) (wire : List Nat) :
    readVal bigE (Shape.assocMap k v) wire =
      Option.map (fun r => (Value.assocMap r.1, r.2)) (readAssocInto bigE k v old wire) := by
  rw [readVal, readAssocInto]
  rcases hc : readCount bigE wire with _ | ⟨n, w1⟩
  · simp
  · rcases he : readEntries bigE k v n w1 with _ | ⟨es, w2⟩ <;> simp [he]

/-!
Const destinations.  Four overloads of Pak::parse reject a Read phase
bound to an immutable destination at compile time: the arithmetic Read
overload carries static_assert of not is_const, and the two
const-reference user-defined overloads (member serialize and external
serialize) carry static_assert that the phase is not Read.  The
classification and the rejection are purely type-level, so they are
modelled as a dispatch over the destination descriptor that fails
before looking at the byte stream.
-/

inductive PakError where
  | ConstViolation
  | BoundsViolation
deriving DecidableEq

/-- Destination categories whose Read binding carries an explicit
const assertion in src/Pak.h: arithmetic primitives, user-defined types
with a member serialize hook, and user-defined types with an external
serialize hook. -/
inductive DestKind where
  | arith
  | userMember
  | userExternal
deriving DecidableEq

/-- Models binding the Read phase to a destination of shape sh whose
declared type is const-qualified when isConst holds: the static_assert
fires before any buffer access, otherwise the ordinary Read handler
runs, with a missing result mapped to BoundsViolation. -/
def bindReadDest (bigE : Bool) (kind : DestKind) (isConst : Bool) (sh : Shape)
    (wire : List Nat) : Except PakError (Value × List Nat) :=
  if isConst then .error .ConstViolation
  else
    match readVal bigE sh wire with
    | none => .error .BoundsViolation
    | some r => .ok r

/-!
Auxiliary lemmas for the claim theorems.
-/

theorem storeAt_exact (buf d : List Nat) (h : d.length = buf.length) :
    storeAt buf 0 d = d := by
  rw [storeAt_inb _ _ _ (by omega)]
  simp [h, List.drop_length]

/-- Writing a single argument into a fresh Pak: the Reserve pass
accumulates exactly the wire size, the resize produces a buffer of that
size, and the Write pass fills it completely with the wire bytes. -/
theorem pakWriteOp_fresh (bigE : Bool) (v : Value) :
    pakWriteOp bigE initState [v] =
      { bytes := writeVal bigE v, reserveSize := reserveVal v,
        writePosition := reserveVal v, readPosition := 0 } := by
  have hrl : reserveList [v] = reserveVal v := by simp [reserveList]
  have hwl : writeList bigE [v] = writeVal bigE v := by simp [writeList]
  simp only [pakWriteOp, reserveListStep_eq, initState]
  rw [writeListStep_eq bigE _ [v] (by
    dsimp only
    simp [hwl, hrl, writeVal_length])]
  dsimp only
  rw [storeAt_exact _ _ (by simp [hwl, hrl, writeVal_length]), hwl, hrl]
  simp [writeVal_length]

theorem reserveList_replicate (n : Nat) (v : Value) :
    reserveList (List.replicate n v) = n * reserveVal v := by
  induction n with
  | zero => simp [reserveList]
  | succ n ih =>
    rw [List.replicate_succ, reserveList, ih]
    ring

theorem writeList_replicate_byte (bigE : Bool) (n : Nat) :
    writeList bigE (List.replicate n (Value.prim true [0])) = List.replicate n 0 := by
  induction n with
  | zero => simp [writeList]
  | succ n ih =>
    rw [List.replicate_succ, writeList, writeVal, wireOfPrim_integral, ih,
      List.replicate_succ]
    rfl

/-!
Claim theorems.
-/

/-- A dynamic sequence whose size is a nonzero multiple of 2 to the 32
does not round-trip: the truncated count on the wire is zero, so the
read reconstructs the empty sequence and leaves the element bytes
unconsumed. -/
theorem bigSeq_breaks_roundtrip (n : Nat) (hn : n % 2 ^ 32 = 0) (hn0 : n ≠ 0) :
    readVal false (Shape.dynSeq (Shape.prim 1 true))
        (writeVal false (Value.dynSeq (List.replicate n (Value.prim true [0]))))
      = some (Value.dynSeq [], List.replicate n 0) ∧
    readVal false (Shape.dynSeq (Shape.prim 1 true))
        (writeVal false (Value.dynSeq (List.replicate n (Value.prim true [0]))))
      ≠ some (Value.dynSeq (List.replicate n (Value.prim true [0])), []) := by
  have hw : writeVal false (Value.dynSeq (List.replicate n (Value.prim true [0])))
      = leBytes 4 0 ++ List.replicate n 0 := by
    rw [writeVal, wireOfPrim_integral, writeList_replicate_byte]
    simp only [List.length_replicate]
    rw [hn]
  have hr : readVal false (Shape.dynSeq (Shape.prim 1 true))
      (leBytes 4 0 ++ List.replicate n 0)
      = some (Value.dynSeq [], List.replicate n 0) := by
    rw [readVal, readCount_leBytes false 0 _ (by norm_num)]
    simp [readN]
  refine ⟨hw ▸ hr, ?_⟩
  rw [hw, hr]
  intro hEq
  have h1 : ([] : List Value) = List.replicate n (Value.prim true [0]) := by
    simpa using hEq
  have h2 := congrArg List.length h1
  simp at h2
  exact hn0 h2.symm

/-- Claim C1, counterexample: the round-trip property fails as stated
for a dynamic sequence of 2 to the 32 one-byte elements, because the
element count is truncated to 4 unsigned bytes on the wire.  Writing
that sequence into a fresh Pak emits a zero count followed by the
element bytes, and reading it back with a destination of identical
shape reconstructs the empty sequence, not the original value. -/
theorem C1_roundtrip_counterexample :
    readVal false (Shape.dynSeq (Shape.prim 1 true))
        (writeVal false (Value.dynSeq (List.replicate (2 ^ 32) (Value.prim true [0]))))
      = some (Value.dynSeq [], List.replicate (2 ^ 32) 0) ∧
    readVal false (Shape.dynSeq (Shape.prim 1 true))
        (writeVal false (Value.dynSeq (List.replicate (2 ^ 32) (Value.prim true [0]))))
      ≠ some (Value.dynSeq (List.replicate (2 ^ 32) (Value.prim true [0])), []) :=
  bigSeq_breaks_roundtrip (2 ^ 32) (Nat.mod_self _) (by norm_num)

/-- Claim C1, amended: for every value of a supported category all of
whose dynamic sequences and associative maps hold fewer than 2 to the
32 elements (wfB also fixes the destination shape), writing it into a
fresh Pak stores exactly its wire bytes starting at read position zero,
and reading with a destination of identical shape reconstructs a
structurally equal value, on either host byte order. -/
theorem C1_roundtrip (bigE : Bool) (sh : Shape) (v : Value)
    (h : wfB sh v = true) :
    (pakWriteOp bigE initState [v]).bytes = writeVal bigE v ∧
    (pakWriteOp bigE initState [v]).readPosition = 0 ∧
    readVal bigE sh (writeVal bigE v) = some (v, []) := by
  refine ⟨by rw [pakWriteOp_fresh], by rw [pakWriteOp_fresh], ?_⟩
  have := readVal_writeVal bigE sh v h []
  simpa using this

/-- Witness for C1_roundtrip: a pair of a 16-bit integer and a
one-character string round-trips through a fresh Pak. -/
theorem C1_roundtrip_witness :
    wfB (Shape.pair (Shape.prim 2 true) (Shape.dynSeq (Shape.prim 1 true)))
        (Value.pair (Value.prim true [5, 0]) (Value.dynSeq [Value.prim true [97]])) = true ∧
    readVal false (Shape.pair (Shape.prim 2 true) (Shape.dynSeq (Shape.prim 1 true)))
        (writeVal false
          (Value.pair (Value.prim true [5, 0]) (Value.dynSeq [Value.prim true [97]])))
      = some (Value.pair (Value.prim true [5, 0]) (Value.dynSeq [Value.prim true [97]]), []) := by
  have hwf : wfB (Shape.pair (Shape.prim 2 true) (Shape.dynSeq (Shape.prim 1 true)))
      (Value.pair (Value.prim true [5, 0]) (Value.dynSeq [Value.prim true [97]])) = true := by
    simp [wfB, wfListB]
  exact ⟨hwf, (C1_roundtrip false _ _ hwf).2.2⟩

/-- Claim C2, counterexample: on a big-endian host a 4-byte
floating-point primitive is written in host byte order, not
little-endian, because shouldByteSwap is false for every non-integral
type: the wire bytes come out reversed relative to the claimed
little-endian encoding and no byte reversal is applied. -/
theorem C2_endian_counterexample :
    writeVal true (Value.prim false [1, 2, 3, 4]) = [4, 3, 2, 1] ∧
    shouldByteSwap true 4 false = false ∧
    ([4, 3, 2, 1] : List Nat) ≠ [1, 2, 3, 4] := by
  refine ⟨?_, by decide, by decide⟩
  rw [writeVal]
  simp [wireOfPrim, hostBytes, copyPrimitive, shouldByteSwap]

/-- Claim C2, amended: every arithmetic primitive occupies exactly
sizeof raw bytes on the wire; integral primitives are stored
little-endian regardless of host order, with multi-byte integrals
byte-reversed on big-endian hosts both after the copy on Write and
before delivery on Read; one-byte and floating-point primitives are
never swapped, so floating-point values are stored in host byte
order. -/
theorem C2_endian (bigE : Bool) (le : List Nat) :
    (∀ i, (writeVal bigE (Value.prim i le)).length = le.length) ∧
    writeVal bigE (Value.prim true le) = le ∧
    readPrimLe bigE true le = le ∧
    writeVal bigE (Value.prim false le) = hostBytes bigE le ∧
    (∀ n, shouldByteSwap bigE n false = false) ∧
    (1 < le.length → shouldByteSwap true le.length true = true) := by
  refine ⟨fun i => by rw [writeVal, length_wireOfPrim],
    by rw [writeVal, wireOfPrim_integral],
    readPrimLe_integral bigE le,
    ?_,
    fun n => by simp [shouldByteSwap],
    fun h => by simp [shouldByteSwap, h]⟩
  rw [writeVal, wireOfPrim, copyPrimitive]
  simp [shouldByteSwap]

/-- Witness for C2_endian at a concrete 4-byte integral value on a
big-endian host. -/
theorem C2_endian_witness :
    writeVal true (Value.prim true [4, 3, 2, 1]) = [4, 3, 2, 1] ∧
    (1 < 4 → shouldByteSwap true 4 true = true) := by
  have h := C2_endian true [4, 3, 2, 1]
  exact ⟨h.2.1, by simpa using h.2.2.2.2.2⟩

/-- Claim C3, code bug: reserveSize is never reset, so while the first
write on a fresh Pak grows the buffer by exactly the bytes its Write
pass appends, a second write grows it by the total accumulated
reservation.  Writing one byte twice: after the first call the buffer
is [7] and reserveSize is 1; the second call reserves 1 more byte
(reserveVal of the argument is 1) yet resizes the buffer from 1 to 3
bytes, appends only one byte (writePosition goes from 1 to 2), and
leaves a trailing zero byte that was never written. -/
theorem C3_reserve_never_reset :
    (pakWriteOp false initState [Value.prim true [7]]).bytes = [7] ∧
    (pakWriteOp false initState [Value.prim true [7]]).reserveSize = 1 ∧
    (pakWriteOp false initState [Value.prim true [7]]).writePosition = 1 ∧
    (pakWriteOp false (pakWriteOp false initState [Value.prim true [7]])
        [Value.prim true [9]]).bytes = [7, 9, 0] ∧
    (pakWriteOp false (pakWriteOp false initState [Value.prim true [7]])
        [Value.prim true [9]]).writePosition = 2 ∧
    (pakWriteOp false (pakWriteOp false initState [Value.prim true [7]])
        [Value.prim true [9]]).reserveSize = 2 ∧
    reserveList [Value.prim true [9]] = 1 := by
  refine ⟨by decide, by decide, by decide, by decide, by decide, by decide, by decide⟩

/-- Equality of the bulk fast path with the element-by-element path on
one range: the single memcpy plus batched swap pass equals the
concatenation of the per-element copyPrimitive results. -/
theorem copyPrimitiveArray_eq_map (bigE i : Bool) (w : Nat) (hosts : List (List Nat))
    (hw : 0 < w) (hh : ∀ c ∈ hosts, c.length = w) :
    copyPrimitiveArray bigE i w hosts.flatten
      = (hosts.map (copyPrimitive bigE i)).flatten := by
  rw [copyPrimitiveArray]
  by_cases hs : shouldByteSwap bigE w i = true
  · rw [if_pos hs, swapChunks_flatten w hw hosts hh]
    congr 1
    apply List.map_congr_left
    intro c hc
    rw [copyPrimitive, hh c hc, if_pos hs, byteSwapBytes]
  · rw [if_neg hs]
    have : hosts.map (copyPrimitive bigE i) = hosts := by
      rw [show hosts.map (copyPrimitive bigE i) = hosts.map id from
        List.map_congr_left fun c hc => by
          rw [copyPrimitive, hh c hc, if_neg hs]
          rfl]
      exact List.map_id hosts
    rw [this]

/-- Claim C4: for every homogeneous arithmetic range over contiguous
storage, of every element width and integrality and on either host
byte order, the bulk-copy fast path produces exactly the bytes of the
generic element-by-element path: on Write, applied to the concatenated
in-memory representations, it yields the concatenation of the
per-element wire bytes, and the identical function body is the Read
direction applied to wire chunks. -/
theorem C4_fastpath_equiv (bigE i : Bool) (w : Nat) (hosts les : List (List Nat))
    (hw : 0 < w) (hhosts : ∀ c ∈ hosts, c.length = w) (hles : ∀ c ∈ les, c.length = w) :
    copyPrimitiveArray bigE i w hosts.flatten
      = (hosts.map (copyPrimitive bigE i)).flatten ∧
    copyPrimitiveArray bigE i w ((les.map (hostBytes bigE)).flatten)
      = (les.map (wireOfPrim bigE i)).flatten := by
  refine ⟨copyPrimitiveArray_eq_map bigE i w hosts hw hhosts, ?_⟩
  have h1 := copyPrimitiveArray_eq_map bigE i w (les.map (hostBytes bigE)) hw (by
    intro c hc
    obtain ⟨le, hle, rfl⟩ := List.mem_map.mp hc
    rw [length_hostBytes]
    exact hles le hle)
  rw [h1, List.map_map]
  rfl

/-- Witness for C4_fastpath_equiv on two 2-byte elements with
swapping enabled (big-endian host, integral elements). -/
theorem C4_fastpath_equiv_witness :
    (0 < 2 ∧ (∀ c ∈ [[1, 2], [3, 4]], List.length c = 2)
      ∧ (∀ c ∈ [[5, 6]], List.length c = 2)) ∧
    copyPrimitiveArray true true 2 ([[1, 2], [3, 4]] : List (List Nat)).flatten
      = (([[1, 2], [3, 4]] : List (List Nat)).map (copyPrimitive true true)).flatten := by
  refine ⟨⟨by decide, by decide, by decide⟩, ?_⟩
  exact (C4_fastpath_equiv true true 2 [[1, 2], [3, 4]] [[5, 6]]
    (by decide) (by decide) (by decide)).1

/-- Claim C5: reading an associative map reads a 4-byte count, clears
the destination (the result never depends on the pre-existing
entries), then inserts exactly count freshly read pairs at the end;
decoding the encoding of the one-entry map sending the 32-bit key 1 to
the one-character string holding byte 97 into any pre-populated
destination yields exactly that one entry, on either host order. -/
theorem C5_map_read_clears :
    (∀ (bigE : Bool) (k v : Shape) (old old2 : List Value) (wire : List Nat),
      readAssocInto bigE k v old wire = readAssocInto bigE k v old2 wire) ∧
    (∀ (bigE : Bool) (k v : Shape) (old : List Value) (wire : List Nat),
      readVal bigE (Shape.assocMap k v) wire
        = Option.map (fun r => (Value.assocMap r.1, r.2))
            (readAssocInto bigE k v old wire)) ∧
    (∀ (bigE : Bool) (old : List Value),
      readAssocInto bigE (Shape.prim 4 true) (Shape.dynSeq (Shape.prim 1 true)) old
          (writeVal bigE (Value.assocMap
            [Value.pair (Value.prim true [1, 0, 0, 0])
              (Value.dynSeq [Value.prim true [97]])]))
        = some ([Value.pair (Value.prim true [1, 0, 0, 0])
            (Value.dynSeq [Value.prim true [97]])], [])) := by
  refine ⟨fun bigE k v old old2 wire => rfl,
    fun bigE k v old wire => readVal_assocMap_eq_readAssocInto bigE k v old wire, ?_⟩
  intro bigE old
  have hwf : wfB (Shape.assocMap (Shape.prim 4 true) (Shape.dynSeq (Shape.prim 1 true)))
      (Value.assocMap [Value.pair (Value.prim true [1, 0, 0, 0])
        (Value.dynSeq [Value.prim true [97]])]) = true := by
    simp [wfB, wfEntriesB, wfListB]
  have h1 := readVal_writeVal bigE _ _ hwf []
  rw [List.append_nil] at h1
  rw [readVal_assocMap_eq_readAssocInto bigE _ _ old _] at h1
  rcases hx : readAssocInto bigE (Shape.prim 4 true) (Shape.dynSeq (Shape.prim 1 true)) old
      (writeVal bigE (Value.assocMap [Value.pair (Value.prim true [1, 0, 0, 0])
        (Value.dynSeq [Value.prim true [97]])])) with _ | ⟨es, wr⟩
  · rw [hx] at h1
    simp [Option.map] at h1
  · rw [hx] at h1
    simp only [Option.map] at h1
    simp only [Option.some_inj, Prod.mk.injEq, Value.assocMap.injEq] at h1
    rw [h1.1, h1.2]

/-- Claim C6: a dynamic sequence is written as a 4-byte little-endian
element count followed by the element encodings in iteration order; an
empty sequence contributes exactly four zero bytes and the 32-bit
sequence holding 7, 8, 9 contributes 4 count bytes followed by the 12
element bytes in order, on either host order. -/
theorem C6_sequence_framing :
    (∀ (bigE : Bool) (es : List Value), es.length < 2 ^ 32 →
      writeVal bigE (Value.dynSeq es) = leBytes 4 es.length ++ writeList bigE es) ∧
    (∀ bigE : Bool, writeVal bigE (Value.dynSeq []) = [0, 0, 0, 0]) ∧
    (∀ bigE : Bool,
      writeVal bigE (Value.dynSeq [Value.prim true [7, 0, 0, 0],
          Value.prim true [8, 0, 0, 0], Value.prim true [9, 0, 0, 0]])
        = [3, 0, 0, 0, 7, 0, 0, 0, 8, 0, 0, 0, 9, 0, 0, 0]) := by
  refine ⟨fun bigE es h => ?_, fun bigE => ?_, fun bigE => ?_⟩
  · rw [writeVal, wireOfPrim_integral, Nat.mod_eq_of_lt h]
  · rw [writeVal, wireOfPrim_integral]
    simp only [writeList, List.length_nil]
    decide
  · rw [writeVal, wireOfPrim_integral]
    simp only [writeList, writeVal, wireOfPrim_integral, List.length_cons, List.length_nil]
    decide

/-- Witness for C6_sequence_framing with a one-element sequence. -/
theorem C6_sequence_framing_witness :
    ([Value.prim true [7]] : List Value).length < 2 ^ 32 ∧
    writeVal false (Value.dynSeq [Value.prim true [7]])
      = leBytes 4 1 ++ writeList false [Value.prim true [7]] := by
  refine ⟨by decide, ?_⟩
  have h := (C6_sequence_framing).1 false [Value.prim true [7]] (by decide)
  simpa using h

/-- Claim C7: the byte-swap operation is a self-inverse reversal of
the byte representation: applying it twice to an integer of width 2, 4
or 8 bytes returns the original bit pattern, and reversing the byte
list twice returns the original bytes. -/
theorem C7_double_swap (w n : Nat) (hw : w = 2 ∨ w = 4 ∨ w = 8)
    (hn : n < 2 ^ (8 * w)) :
    byteSwapNat w (byteSwapNat w n) = n ∧
    byteSwapBytes (byteSwapBytes (leBytes w n)) = leBytes w n := by
  have h256 : (2 : Nat) ^ (8 * w) = 256 ^ w := by
    rw [pow_mul]
    norm_num
  rw [h256] at hn
  constructor
  · rw [byteSwapNat, byteSwapNat, byteSwapBytes, byteSwapBytes]
    have hlen : (leBytes w n).reverse.length = w := by
      simp [length_leBytes]
    have hbytes : ∀ b ∈ (leBytes w n).reverse, b < 256 := by
      intro b hb
      exact leBytes_lt w n b (List.mem_reverse.mp hb)
    have hback := leBytes_fromLE _ hbytes
    rw [hlen] at hback
    rw [hback, List.reverse_reverse, fromLE_leBytes w n hn]
  · rw [byteSwapBytes, byteSwapBytes, List.reverse_reverse]

/-- Witness for C7_double_swap at width 4 and value 0x01020304. -/
theorem C7_double_swap_witness :
    ((4 : Nat) = 2 ∨ (4 : Nat) = 4 ∨ (4 : Nat) = 8) ∧ 16909060 < 2 ^ (8 * 4) ∧
    byteSwapNat 4 (byteSwapNat 4 16909060) = 16909060 := by
  refine ⟨by decide, by decide, ?_⟩
  exact (C7_double_swap 4 16909060 (by decide) (by decide)).1

/-- Claim C8: binding the Read phase to an immutable destination of
any shape is rejected with ConstViolation for arithmetic destinations
and for user-defined destinations with member or external serialize
hooks, independently of the byte stream, so no bytes are consumed:
the rejection is identical on the empty stream. -/
theorem C8_const_read_rejected (bigE : Bool) (kind : DestKind) (sh : Shape)
    (wire : List Nat) :
    bindReadDest bigE kind true sh wire = .error .ConstViolation ∧
    bindReadDest bigE kind true sh wire = bindReadDest bigE kind true sh [] := by
  constructor <;> simp [bindReadDest]

/-- Claim C9: the Reserve pass never mutates the byte buffer or either
cursor: over any argument list it leaves the bytes, the write cursor
and the read cursor exactly as they were, and changes only the
reservation accumulator, adding the total reserved size. -/
theorem C9_reserve_frame (s : PakState) (args : List Value) :
    (reserveListStep s args).bytes = s.bytes ∧
    (reserveListStep s args).writePosition = s.writePosition ∧
    (reserveListStep s args).readPosition = s.readPosition ∧
    (reserveListStep s args).reserveSize = s.reserveSize + reserveList args := by
  rw [reserveListStep_eq]
  exact ⟨rfl, rfl, rfl, rfl⟩

/-- The Reserve pass and the Write pass traverse the full element
range of a container: for a sequence of n one-byte elements they
account n element bytes besides the 4 count bytes, independently of
the truncated count. -/
theorem bigSeq_true_size (n : Nat) :
    reserveVal (Value.dynSeq (List.replicate n (Value.prim true [0]))) = 4 + n ∧
    (writeList false (List.replicate n (Value.prim true [0]))).length = n := by
  constructor
  · rw [reserveVal, reserveList_replicate]
    simp [reserveVal]
  · rw [writeList_replicate_byte]
    simp

/-- Claim C10, counterexample: for a sequence of 2 to the 32 one-byte
elements the emitted count is the size truncated to zero, but the
Reserve pass accumulates 4 plus 2 to the 32 bytes and the Write pass
emits all 2 to the 32 element bytes: the reserved and written sizes
are computed from the true size, not from the truncated count. -/
theorem C10_truncation_counterexample :
    reserveVal (Value.dynSeq (List.replicate (2 ^ 32) (Value.prim true [0])))
      = 4 + 2 ^ 32 ∧
    2 ^ 32 % 2 ^ 32 = 0 ∧
    (4 : Nat) + 2 ^ 32 ≠ 4 ∧
    (writeList false (List.replicate (2 ^ 32) (Value.prim true [0]))).length = 2 ^ 32 :=
  ⟨(bigSeq_true_size (2 ^ 32)).1, Nat.mod_self _, by norm_num,
    (bigSeq_true_size (2 ^ 32)).2⟩

/-- Claim C10, amended: the element count of a dynamic sequence or
associative map is emitted as the size reduced modulo 2 to the 32, but
Reserve and Write still traverse the full element range: the element
bytes reserved and written are computed from the true size. -/
theorem C10_truncated_count (bigE : Bool) (es : List Value) :
    writeVal bigE (Value.dynSeq es) = leBytes 4 (es.length % 2 ^ 32) ++ writeList bigE es ∧
    writeVal bigE (Value.assocMap es)
      = leBytes 4 (es.length % 2 ^ 32) ++ writeList bigE es ∧
    reserveVal (Value.dynSeq es) = 4 + reserveList es ∧
    (writeList bigE es).length = reserveList es := by
  refine ⟨by rw [writeVal, wireOfPrim_integral], by rw [writeVal, wireOfPrim_integral],
    by rw [reserveVal], writeList_length bigE es⟩

end Pak
